import Mathlib

/-!
# Verification of the TFS path and file-system layer

A shallow embedding of the TerbiumOS TFS repository (a browser file system
emulating the node:fs contract on top of OPFS directory/file handles).

Strings from the JavaScript source are modelled as `List Char` where the
algorithms inspect characters (the path layer), and as Lean `String`
elsewhere.  JavaScript `str.split("/")` (which keeps empty segments),
`Array.prototype.filter(Boolean)`, `Array.prototype.join("/")`,
`Array.prototype.pop` and the trailing-separator regexes are each given a
direct recursive translation below.
-/

namespace TFS

/-! ## Path layer (class `Path`, file `src/path`)

`sep` is the default `"/"`; `normalize` never passes the optional `sep`
argument, so the separator is fixed to `'/'` throughout. -/

/-- JavaScript `str.split("/")` on the character list: split at every `'/'`,
keeping empty segments, as JS does (`"".split("/") == [""]`,
`"/".split("/") == ["", ""]`). -/
def jsSplit : List Char → List (List Char)
  | [] => [[]]
  | c :: cs =>
    match jsSplit cs with
    | [] => [[]]
    | s :: rest => if c = '/' then [] :: s :: rest else (c :: s) :: rest

/-- `path.split("/").filter(Boolean)` — the empty string is the only falsy
segment. -/
def filteredSplit (s : List Char) : List (List Char) :=
  (jsSplit s).filter (· ≠ [])

/-- The `for (const part of parts)` loop of `normalizePath`: skip `"."` and
`""`, pop on `".."` (a pop on an empty stack is a no-op), push anything
else.  The JS stack pushes/pops at the end of the array. -/
def buildStack : List (List Char) → List (List Char) → List (List Char)
  | [], stack => stack
  | p :: ps, stack =>
    if p = ['.'] ∨ p = [] then buildStack ps stack
    else if p = ['.', '.'] then buildStack ps stack.dropLast
    else buildStack ps (stack ++ [p])

/-- `stack.join("/")`. -/
def slashJoin : List (List Char) → List Char
  | [] => []
  | [a] => a
  | a :: b :: t => a ++ '/' :: slashJoin (b :: t)

/-- `Path.normalizePath(path)` with the default separator `"/"`:
an empty path returns the separator; a relative path is prefixed with
`sep + "/"`; segments are resolved through stack processing; the result is
`"/" + stack.join("/")` with the (unreachable) `"//"` special case kept
from the source. -/
def normalizePath (path : List Char) : List Char :=
  if path = [] then ['/']
  else
    let p2 := if path.head? = some '/' then path else '/' :: '/' :: path
    let stack := buildStack (filteredSplit p2) []
    let newPath := '/' :: slashJoin stack
    if newPath = ['/', '/'] then ['/'] else newPath

/-- `Path.removeTrailing(path)`: `path.replace(/\/*$/, "")`, i.e. the
trailing run of slashes is removed; an emptied path becomes `"/"`. -/
def removeTrailing (p : List Char) : List Char :=
  let q := (p.reverse.dropWhile (fun c => c = '/')).reverse
  if q = [] then ['/'] else q

/-- `Path.normalize(path)`: `normalizePath` then `removeTrailing`, except
that the root is kept as `"/"`. -/
def normalize (p : List Char) : List Char :=
  let n := normalizePath p
  if n = ['/'] then ['/'] else removeTrailing n

/-- `Path.basename(path)` with no extension argument:
`path.split("/").pop() || ""`, returning `"/"` when that is empty. -/
def basename (p : List Char) : List Char :=
  let base := ((jsSplit p).getLast?).getD []
  if base = [] then ['/'] else base

/-- `Path.dirname(path)`: `"/"` for the empty path and the root; otherwise
drop the last element of the slash-filtered segments and rejoin. -/
def dirname (p : List Char) : List Char :=
  if p = [] ∨ p = ['/'] then ['/']
  else '/' :: slashJoin (filteredSplit p).dropLast

/-- String-level wrapper of `normalize`. -/
def normalizeS (p : String) : String := ⟨normalize p.data⟩

/-- String-level wrapper of `basename`. -/
def basenameS (p : String) : String := ⟨basename p.data⟩

/-- String-level wrapper of `dirname`. -/
def dirnameS (p : String) : String := ⟨dirname p.data⟩

/-- The value `"/" + stack.join("/")` (with the source's `"//"` special
case) as a function of the segment list fed to the stack loop. -/
def pathCore (l : List (List Char)) : List Char :=
  if '/' :: slashJoin (buildStack l []) = ['/', '/'] then ['/']
  else '/' :: slashJoin (buildStack l [])

/-- `normalize` as a function of the slash-filtered segment list. -/
def normCore (l : List (List Char)) : List Char :=
  if pathCore l = ['/'] then ['/'] else removeTrailing (pathCore l)

/-- A segment that sits on the resolution stack: nonempty, not `"."`, not
`".."`, and free of slashes. -/
def SegOk (x : List Char) : Prop :=
  x ≠ [] ∧ x ≠ ['.'] ∧ x ≠ ['.', '.'] ∧ '/' ∉ x

theorem jsSplit_ne_nil (s : List Char) : jsSplit s ≠ [] := by
  cases s with
  | nil => simp [jsSplit]
  | cons c cs =>
    simp only [jsSplit]
    split
    · simp
    · split <;> simp

theorem jsSplit_cons_slash (s : List Char) : jsSplit ('/' :: s) = [] :: jsSplit s := by
  have h := jsSplit_ne_nil s
  simp only [jsSplit]
  cases hs : jsSplit s with
  | nil => exact absurd hs h
  | cons a t => simp

theorem no_slash_of_mem_jsSplit : ∀ (s : List Char) (x : List Char), x ∈ jsSplit s → '/' ∉ x := by
  intro s
  induction s with
  | nil => intro x hx; simp [jsSplit] at hx; simp [hx]
  | cons c cs ih =>
    intro x hx
    rcases hs : jsSplit cs with _ | ⟨a, t⟩
    · exact absurd hs (jsSplit_ne_nil cs)
    · simp only [jsSplit, hs] at hx
      by_cases hc : c = '/'
      · simp [hc] at hx
        rcases hx with hx | hx | hx
        · simp [hx]
        · exact ih x (by rw [hs]; exact hx ▸ List.mem_cons_self a t)
        · exact ih x (by rw [hs]; exact List.mem_cons_of_mem a hx)
      · simp [hc] at hx
        rcases hx with hx | hx
        · subst hx
          intro hmem
          rcases List.mem_cons.mp hmem with h1 | h1
          · exact hc h1.symm
          · exact ih a (by rw [hs]; exact List.mem_cons_self a t) h1
        · exact ih x (by rw [hs]; exact List.mem_cons_of_mem a hx)

theorem jsSplit_no_slash {a : List Char} (h : '/' ∉ a) : jsSplit a = [a] := by
  induction a with
  | nil => rfl
  | cons c cs ih =>
    have hc : c ≠ '/' := fun e => h (e ▸ List.mem_cons_self c cs)
    have hcs : '/' ∉ cs := fun m => h (List.mem_cons_of_mem c m)
    simp only [jsSplit, ih hcs]
    simp [hc]

theorem jsSplit_append_slash {a : List Char} (s : List Char) (h : '/' ∉ a) :
    jsSplit (a ++ '/' :: s) = a :: jsSplit s := by
  induction a with
  | nil => simpa using jsSplit_cons_slash s
  | cons c cs ih =>
    have hc : c ≠ '/' := fun e => h (e ▸ List.mem_cons_self c cs)
    have hcs : '/' ∉ cs := fun m => h (List.mem_cons_of_mem c m)
    simp only [List.cons_append, jsSplit, List.append_eq]
    rw [ih hcs]
    simp [hc]

theorem mem_of_getLast?_eq {α : Type} {l : List α} {a : α} (h : l.getLast? = some a) :
    a ∈ l := by
  have hne : l ≠ [] := by intro e; subst e; simp at h
  rw [List.getLast?_eq_getLast_of_ne_nil hne] at h
  have hm := List.getLast_mem hne
  rwa [Option.some.inj h] at hm

theorem getLast?_append_right {α : Type} {l l' : List α} (h : l' ≠ []) :
    (l ++ l').getLast? = l'.getLast? := by
  rw [List.getLast?_append, Option.or_of_isSome (by simpa using h)]

theorem filteredSplit_cons_slash (s : List Char) :
    filteredSplit ('/' :: s) = filteredSplit s := by
  unfold filteredSplit
  rw [jsSplit_cons_slash]
  simp

theorem no_slash_of_mem_filteredSplit {s x : List Char} (h : x ∈ filteredSplit s) : '/' ∉ x :=
  no_slash_of_mem_jsSplit s x (List.mem_of_mem_filter h)

theorem ne_nil_of_mem_filteredSplit {s x : List Char} (h : x ∈ filteredSplit s) : x ≠ [] := by
  have := List.of_mem_filter h
  simpa using this

theorem filteredSplit_slashJoin :
    ∀ (l : List (List Char)), (∀ x ∈ l, x ≠ [] ∧ '/' ∉ x) → filteredSplit (slashJoin l) = l
  | [], _ => rfl
  | [a], h => by
    have ha := h a (List.mem_cons_self a [])
    unfold slashJoin filteredSplit
    rw [jsSplit_no_slash ha.2]
    simp [ha.1]
  | a :: b :: t, h => by
    have ha := h a (List.mem_cons_self a (b :: t))
    have hrest : ∀ x ∈ b :: t, x ≠ [] ∧ '/' ∉ x := fun x hx => h x (List.mem_cons_of_mem a hx)
    have ih := filteredSplit_slashJoin (b :: t) hrest
    show filteredSplit (a ++ '/' :: slashJoin (b :: t)) = a :: b :: t
    unfold filteredSplit
    rw [jsSplit_append_slash _ ha.2]
    rw [List.filter_cons_of_pos (by simpa using ha.1)]
    exact congrArg (a :: ·) ih

theorem buildStack_all_push :
    ∀ (l st : List (List Char)), (∀ p ∈ l, p ≠ [] ∧ p ≠ ['.'] ∧ p ≠ ['.', '.']) →
      buildStack l st = st ++ l
  | [], st, _ => by simp [buildStack]
  | p :: ps, st, h => by
    have hp := h p (List.mem_cons_self p ps)
    have hps : ∀ q ∈ ps, q ≠ [] ∧ q ≠ ['.'] ∧ q ≠ ['.', '.'] := fun q hq => h q (List.mem_cons_of_mem p hq)
    unfold buildStack
    rw [if_neg (by simp [hp.2.1, hp.1]), if_neg hp.2.2]
    rw [buildStack_all_push ps (st ++ [p]) hps]
    simp

theorem buildStack_good :
    ∀ (l st : List (List Char)), (∀ x ∈ st, SegOk x) → (∀ p ∈ l, '/' ∉ p) →
      ∀ x ∈ buildStack l st, SegOk x
  | [], st, hst, _, x, hx => hst x hx
  | p :: ps, st, hst, hl, x, hx => by
    have hp : '/' ∉ p := hl p (List.mem_cons_self p ps)
    have hps : ∀ q ∈ ps, '/' ∉ q := fun q hq => hl q (List.mem_cons_of_mem p hq)
    unfold buildStack at hx
    by_cases h1 : p = ['.'] ∨ p = []
    · rw [if_pos h1] at hx
      exact buildStack_good ps st hst hps x hx
    · rw [if_neg h1] at hx
      by_cases h2 : p = ['.', '.']
      · rw [if_pos h2] at hx
        refine buildStack_good ps st.dropLast ?_ hps x hx
        intro y hy
        exact hst y (by
          rw [List.dropLast_eq_take] at hy
          exact List.take_subset _ _ hy)
      · rw [if_neg h2] at hx
        refine buildStack_good ps (st ++ [p]) ?_ hps x hx
        intro y hy
        rcases List.mem_append.mp hy with hy | hy
        · exact hst y hy
        · have : y = p := by simpa using hy
          subst this
          refine ⟨?_, ?_, h2, hp⟩
          · intro e; exact h1 (Or.inr e)
          · intro e; exact h1 (Or.inl e)

theorem slashJoin_ne_nil :
    ∀ (st : List (List Char)), st ≠ [] → (∀ x ∈ st, x ≠ []) → slashJoin st ≠ []
  | [], h, _ => absurd rfl h
  | [a], _, hx => by simpa [slashJoin] using hx a (List.mem_cons_self a [])
  | a :: b :: t, _, hx => by
    show a ++ '/' :: slashJoin (b :: t) ≠ []
    simp

theorem slashJoin_ne_single_slash
    (st : List (List Char)) (h : ∀ x ∈ st, SegOk x) : slashJoin st ≠ ['/'] := by
  match st with
  | [] => simp [slashJoin]
  | [a] =>
    have ha := h a (List.mem_cons_self a [])
    show a ≠ ['/']
    intro e
    exact ha.2.2.2 (e ▸ List.mem_cons_self '/' [])
  | a :: b :: t =>
    have ha := h a (List.mem_cons_self a (b :: t))
    show a ++ '/' :: slashJoin (b :: t) ≠ ['/']
    intro e
    have hlen := congrArg List.length e
    simp at hlen
    have : a.length = 0 := by omega
    exact ha.1 (List.length_eq_zero.mp this)

theorem slashJoin_getLast_ne_slash :
    ∀ (st : List (List Char)), (∀ x ∈ st, SegOk x) → st ≠ [] →
      (slashJoin st).getLast? ≠ some '/'
  | [], _, h => absurd rfl h
  | [a], h, _ => by
    have ha := h a (List.mem_cons_self a [])
    show a.getLast? ≠ some '/'
    intro e
    exact ha.2.2.2 (mem_of_getLast?_eq e)
  | a :: b :: t, h, _ => by
    have hrest : ∀ x ∈ b :: t, SegOk x := fun x hx => h x (List.mem_cons_of_mem a hx)
    have ih := slashJoin_getLast_ne_slash (b :: t) hrest (by simp)
    have hjoin : slashJoin (b :: t) ≠ [] :=
      slashJoin_ne_nil (b :: t) (by simp) (fun x hx => (hrest x hx).1)
    show (a ++ '/' :: slashJoin (b :: t)).getLast? ≠ some '/'
    rw [getLast?_append_right (by simp)]
    rw [show ('/' :: slashJoin (b :: t)) = ['/'] ++ slashJoin (b :: t) from rfl]
    rw [getLast?_append_right hjoin]
    exact ih

theorem removeTrailing_of_getLast {r : List Char} (hr : r ≠ [])
    (h : r.getLast? ≠ some '/') : removeTrailing r = r := by
  unfold removeTrailing
  have hrev : r.reverse.dropWhile (fun c => c = '/') = r.reverse := by
    cases hc : r.reverse with
    | nil => simp
    | cons c cs =>
      have hhead : r.getLast? = some c := by
        rw [← List.head?_reverse, hc]
        rfl
      have : ¬ (c = '/') := fun e => h (by rw [hhead, e])
      simp [List.dropWhile_cons, this]
  rw [hrev, List.reverse_reverse]
  simp [hr]

theorem pathCore_eq_of_stack {l st : List (List Char)}
    (hst : buildStack l [] = st) (hgood : ∀ x ∈ st, SegOk x) :
    pathCore l = '/' :: slashJoin st := by
  unfold pathCore
  rw [hst]
  have : '/' :: slashJoin st ≠ ['/', '/'] := by
    intro e
    exact slashJoin_ne_single_slash st hgood (by injection e)
  simp [this]

theorem normCore_eq_of_stack {l st : List (List Char)}
    (hst : buildStack l [] = st) (hgood : ∀ x ∈ st, SegOk x) (hne : st ≠ []) :
    normCore l = '/' :: slashJoin st := by
  have hpc := pathCore_eq_of_stack hst hgood
  have hjoin : slashJoin st ≠ [] :=
    slashJoin_ne_nil st hne (fun x hx => (hgood x hx).1)
  unfold normCore
  rw [hpc]
  rw [if_neg (by intro e; exact hjoin (by injection e))]
  refine removeTrailing_of_getLast (by simp) ?_
  rw [show ('/' :: slashJoin st) = ['/'] ++ slashJoin st from rfl]
  rw [getLast?_append_right hjoin]
  exact slashJoin_getLast_ne_slash st hgood hne

theorem normCore_eq_root {l : List (List Char)} (hst : buildStack l [] = []) :
    normCore l = ['/'] := by
  unfold normCore pathCore
  rw [hst]
  simp [slashJoin]

theorem normalizePath_eq (p : List Char) :
    normalizePath p = pathCore (filteredSplit p) := by
  by_cases hp : p = []
  · subst hp; rfl
  · by_cases hh : p.head? = some '/'
    · simp only [normalizePath, pathCore, if_neg hp, hh, if_pos rfl]
      simp
    · have hfs : filteredSplit ('/' :: '/' :: p) = filteredSplit p := by
        rw [filteredSplit_cons_slash, filteredSplit_cons_slash]
      simp only [normalizePath, pathCore, if_neg hp, if_neg hh]
      rw [hfs]

theorem normalize_eq (p : List Char) : normalize p = normCore (filteredSplit p) := by
  unfold normalize normCore
  rw [normalizePath_eq]

theorem stack_good (p : List Char) :
    ∀ x ∈ buildStack (filteredSplit p) [], SegOk x :=
  buildStack_good (filteredSplit p) [] (by simp)
    (fun q hq => no_slash_of_mem_filteredSplit hq)

theorem normalize_fixed_point {st : List (List Char)}
    (hgood : ∀ x ∈ st, SegOk x) (hne : st ≠ []) :
    normalize ('/' :: slashJoin st) = '/' :: slashJoin st := by
  rw [normalize_eq]
  have hfs : filteredSplit ('/' :: slashJoin st) = st := by
    rw [filteredSplit_cons_slash]
    exact filteredSplit_slashJoin st (fun x hx => ⟨(hgood x hx).1, (hgood x hx).2.2.2⟩)
  rw [hfs]
  have hall : buildStack st [] = st := by
    have := buildStack_all_push st []
      (fun q hq => ⟨(hgood q hq).1, (hgood q hq).2.1, (hgood q hq).2.2.1⟩)
    simpa using this
  exact normCore_eq_of_stack hall hgood hne

/-- Helper: `normalize p` is either the root or the canonical
slash-joined stack. -/
theorem normalize_cases (p : List Char) :
    normalize p = ['/'] ∨
      ∃ st, (∀ x ∈ st, SegOk x) ∧ st ≠ [] ∧ normalize p = '/' :: slashJoin st := by
  rw [normalize_eq]
  cases hst : buildStack (filteredSplit p) [] with
  | nil => exact Or.inl (normCore_eq_root hst)
  | cons a t =>
    refine Or.inr ⟨a :: t, ?_, by simp, ?_⟩
    · intro x hx
      exact stack_good p x (by rw [hst]; exact hx)
    · exact normCore_eq_of_stack hst
        (fun x hx => stack_good p x (by rw [hst]; exact hx)) (by simp)

theorem normalize_idem_list (p : List Char) : normalize (normalize p) = normalize p := by
  rcases normalize_cases p with h | ⟨st, hgood, hne, h⟩
  · rw [h]; decide
  · rw [h]; exact normalize_fixed_point hgood hne

theorem mem_of_mem_dropLast {α : Type} {l : List α} {x : α} (h : x ∈ l.dropLast) : x ∈ l := by
  rw [List.dropLast_eq_take] at h
  exact List.take_subset _ _ h

theorem jsSplit_cons_eq (c : Char) (cs s : List Char) (rest : List (List Char))
    (hs : jsSplit cs = s :: rest) :
    jsSplit (c :: cs) = if c = '/' then [] :: s :: rest else (c :: s) :: rest := by
  simp only [jsSplit, hs]

theorem jsSplit_getLast_ne_nil :
    ∀ (p : List Char), p ≠ [] → p.getLast? ≠ some '/' →
      ((jsSplit p).getLast?).getD [] ≠ []
  | [], h, _ => absurd rfl h
  | [c], _, h => by
    have hc : c ≠ '/' := fun e => h (by simp [e])
    have hnotin : '/' ∉ [c] := by
      intro hmem
      simp at hmem
      exact hc hmem.symm
    rw [jsSplit_no_slash hnotin]
    simp
  | c :: c2 :: cs, _, h => by
    have hlast : (c2 :: cs : List Char).getLast? ≠ some '/' := by
      rwa [List.getLast?_cons_cons] at h
    have ih := jsSplit_getLast_ne_nil (c2 :: cs) (by simp) hlast
    cases hs : jsSplit (c2 :: cs) with
    | nil => exact absurd hs (jsSplit_ne_nil _)
    | cons s rest =>
      rw [hs] at ih
      rw [jsSplit_cons_eq c (c2 :: cs) s rest hs]
      cases rest with
      | nil =>
        simp at ih
        by_cases hc : c = '/' <;> simp [hc, ih]
      | cons r rs =>
        rw [List.getLast?_cons_cons] at ih
        by_cases hc : c = '/' <;> simp [hc, List.getLast?_cons_cons, ih]

theorem jsSplit_slashJoin_append :
    ∀ (m : List (List Char)), m ≠ [] → (∀ x ∈ m, '/' ∉ x) →
      ∀ (s : List Char), jsSplit (slashJoin m ++ '/' :: s) = m ++ jsSplit s
  | [], h, _, _ => absurd rfl h
  | [a], _, hm, s => by
    show jsSplit (a ++ '/' :: s) = [a] ++ jsSplit s
    rw [jsSplit_append_slash s (hm a (List.mem_cons_self a []))]
    rfl
  | a :: b :: t, _, hm, s => by
    have ih := jsSplit_slashJoin_append (b :: t) (by simp)
      (fun x hx => hm x (List.mem_cons_of_mem a hx)) s
    show jsSplit ((a ++ '/' :: slashJoin (b :: t)) ++ '/' :: s) = (a :: b :: t) ++ jsSplit s
    rw [List.append_assoc, List.cons_append]
    rw [jsSplit_append_slash _ (hm a (List.mem_cons_self a (b :: t)))]
    rw [ih]
    simp

theorem filteredSplit_join_append (m : List (List Char))
    (hm : ∀ x ∈ m, x ≠ [] ∧ '/' ∉ x) (b : List Char) (hb : b ≠ []) (hbs : '/' ∉ b) :
    filteredSplit (slashJoin m ++ '/' :: b) = m ++ [b] := by
  cases m with
  | nil =>
    show filteredSplit ('/' :: b) = [b]
    rw [filteredSplit_cons_slash]
    unfold filteredSplit
    rw [jsSplit_no_slash hbs]
    simp [hb]
  | cons a t =>
    unfold filteredSplit
    rw [jsSplit_slashJoin_append (a :: t) (by simp) (fun x hx => (hm x hx).2) b]
    rw [jsSplit_no_slash hbs]
    rw [List.filter_append]
    congr 1
    · exact List.filter_eq_self.mpr (fun x hx => by simpa using (hm x hx).1)
    · simp [hb]

theorem dirname_basename_list (p : List Char) (h : p.getLast? ≠ some '/') :
    normalize (dirname p ++ '/' :: basename p) = normalize p := by
  by_cases hp : p = []
  · subst hp; decide
  · have hroot : p ≠ ['/'] := fun e => h (by simp [e])
    -- the last split segment is the basename and it is a nonempty slash-free word
    obtain ⟨x, hx⟩ : ∃ x, (jsSplit p).getLast? = some x :=
      Option.isSome_iff_exists.mp (List.getLast?_isSome.mpr (jsSplit_ne_nil p))
    have hbne : x ≠ [] := by
      have := jsSplit_getLast_ne_nil p hp h
      rwa [hx] at this
    have hbmem : x ∈ jsSplit p := mem_of_getLast?_eq hx
    have hbs : '/' ∉ x := no_slash_of_mem_jsSplit p x hbmem
    have hbasename : basename p = x := by
      unfold basename
      rw [hx]
      simp [hbne]
    -- split the filtered segments as m ++ [x]
    have hsplit : jsSplit p = (jsSplit p).dropLast ++ [x] :=
      (List.dropLast_append_getLast? x (by simpa using hx)).symm
    have hfs : filteredSplit p = ((jsSplit p).dropLast.filter (· ≠ [])) ++ [x] := by
      unfold filteredSplit
      conv_lhs => rw [hsplit]
      rw [List.filter_append]
      congr 1
      simp [hbne]
    have hm : ∀ y ∈ (jsSplit p).dropLast.filter (· ≠ []), y ≠ [] ∧ '/' ∉ y := by
      intro y hy
      refine ⟨by simpa using List.of_mem_filter hy, ?_⟩
      exact no_slash_of_mem_jsSplit p y (mem_of_mem_dropLast (List.mem_of_mem_filter hy))
    have hdir : dirname p = '/' :: slashJoin ((jsSplit p).dropLast.filter (· ≠ [])) := by
      unfold dirname
      rw [if_neg (by simp [hp, hroot])]
      rw [hfs, List.dropLast_concat]
    rw [hdir, hbasename]
    rw [normalize_eq, normalize_eq p]
    congr 1
    rw [List.cons_append, filteredSplit_cons_slash]
    rw [filteredSplit_join_append _ hm x hbne hbs]
    exact hfs.symm

/-- C5: for every path string `p`, `normalize(normalize(p)) == normalize(p)`
(`Path.normalize` is idempotent). -/
theorem normalize_idempotent (p : String) : normalizeS (normalizeS p) = normalizeS p :=
  congrArg String.mk (normalize_idem_list p.data)

/-- C6 counterexample: for the non-root path `"/a/"` (it normalizes to
`"/a"`, not the root), `dirname` is `"/"` and `basename` is `"/"`, so
`dirname(p) + "/" + basename(p) = "///"` normalizes to `"/"`, which differs
from `normalize(p) = "/a"`.  The claimed round-trip therefore fails on
paths with a trailing separator. -/
theorem dirname_basename_roundtrip_ce :
    normalizeS (dirnameS "/a/" ++ "/" ++ basenameS "/a/") ≠ normalizeS "/a/" ∧
      normalizeS "/a/" ≠ "/" ∧ "/a/" ≠ "/" := by decide

/-- C6 (amended): for every path `p` that does not end in the separator
`'/'` (in particular every non-root path without a trailing slash),
`dirname(p) + "/" + basename(p)` normalizes to the same canonical path as
`normalize(p)`. -/
theorem dirname_basename_roundtrip (p : String) (h : p.data.getLast? ≠ some '/') :
    normalizeS (dirnameS p ++ "/" ++ basenameS p) = normalizeS p := by
  have hlist := dirname_basename_list p.data h
  show String.mk (normalize ((dirnameS p ++ "/" ++ basenameS p).data)) = _
  have hdata : (dirnameS p ++ "/" ++ basenameS p).data
      = dirname p.data ++ '/' :: basename p.data := by
    simp [dirnameS, basenameS, String.data_append]
  rw [hdata]
  exact congrArg String.mk hlist

/-- Witness for the amended C6 at the concrete non-root path `"/x/y.txt"`. -/
theorem dirname_basename_roundtrip_witness :
    normalizeS (dirnameS "/x/y.txt" ++ "/" ++ basenameS "/x/y.txt") = normalizeS "/x/y.txt" :=
  dirname_basename_roundtrip "/x/y.txt" (by decide)

example : normalizeS "/foo/../bar/./baz" = "/bar/baz" := by decide
example : normalizeS "/foo/bar/" = "/foo/bar" := by decide
example : normalizeS "" = "/" := by decide
example : normalizeS "a" = "/a" := by decide
example : basenameS "/foo/bar/baz.txt" = "baz.txt" := by decide
example : dirnameS "/foo/bar/baz.txt" = "/foo/bar" := by decide
example : basenameS "/a/" = "/" := by decide
example : dirnameS "/a/" = "/" := by decide

/-! ## Error mapping (`src/fs/errors.ts`)

`createFSError` also captures a JS stack trace; the stack is runtime state
with no behavioural content, so the model keeps the `name`, `code`,
`errno`, `message` and `path` fields only. -/

/-- An error object produced by `createFSError`. -/
structure FSError where
  name : String
  code : String
  errno : Int
  message : String
  path : Option String
deriving DecidableEq, Repr

/-- The `FSErrors` enum: POSIX code to message. -/
def fsErrMessage : String → String
  | "EACCES" => "permission denied"
  | "EBADF" => "bad file descriptor"
  | "EBUSY" => "resource busy or locked"
  | "EINVAL" => "invalid argument"
  | "ENOTDIR" => "not a directory"
  | "EISDIR" => "illegal operation on a directory"
  | "ENOENT" => "no such file or directory"
  | "EEXIST" => "file already exists"
  | "EPERM" => "operation not permitted"
  | "ELOOP" => "too many symbolic links encountered"
  | "ENOTEMPTY" => "directory not empty"
  | "EIO" => "i/o error"
  | "ENOSPC" => "no space left on device"
  | _ => "unknown error"

/-- The `errnoMap` table. -/
def fsErrno : String → Int
  | "EACCES" => 13
  | "EBADF" => 9
  | "EBUSY" => 16
  | "EINVAL" => 22
  | "ENOTDIR" => 20
  | "EISDIR" => 21
  | "ENOENT" => 34
  | "EEXIST" => 17
  | "EPERM" => 1
  | "ELOOP" => 40
  | "ENOTEMPTY" => 39
  | "EIO" => 5
  | "ENOSPC" => 28
  | _ => -1

/-- `createFSError(code, path, errMSG)`.  The `UNKNOWN && errMSG` branch
stores the original message in the `code` field; an empty `errMSG` is
falsy in JS and takes the regular branch. -/
def createFSError (code : String) (path : Option String) (errMSG : Option String) : FSError :=
  match code, errMSG with
  | "UNKNOWN", some m =>
    if m = "" then
      { name := code, code := code, errno := fsErrno code,
        message := fsErrMessage code, path := path }
    else
      { name := "UNKNOWN", code := m, errno := -1,
        message := fsErrMessage "UNKNOWN", path := path }
  | _, _ =>
    { name := code, code := code, errno := fsErrno code,
      message := fsErrMessage code, path := path }

/-- `genError(err, path)`: dispatch on the backend exception name; anything
unrecognised — including an already-mapped `FSError`, whose `name` is a
POSIX code — falls through to `UNKNOWN` carrying `err.message`.
A non-object argument is first wrapped as `{ name: String(err) }`. -/
def genError (name : String) (path : Option String) (msg : Option String) : FSError :=
  if name = "NotFoundError" then createFSError "ENOENT" path none
  else if name = "TypeMismatchError" then createFSError "EISDIR" path none
  else if name = "NoModificationAllowedError" then createFSError "EPERM" path none
  else if name = "QuotaExceededError" then createFSError "ENOSPC" path none
  else if name = "SecurityError" then createFSError "EACCES" path none
  else if name = "InvalidModificationError" then createFSError "EEXIST" path none
  else if name = "NotReadableError" then createFSError "EIO" path none
  else if name = "DirectoryNotEmptyError" then createFSError "ENOTEMPTY" path none
  else if name = "PathExistsError" then createFSError "EEXIST" path none
  else if name = "noFD" then createFSError "EBADF" path none
  else createFSError "UNKNOWN" path msg

example : (genError "SecurityError" (some "/f") none).code = "EACCES" := by decide
example : (genError "SecurityError" (some "/f") none).errno = 13 := by decide
example : (genError "NotFoundError" none none).code = "ENOENT" := by decide

/-! ## Permission records and the FS state (class `FS`, `src/unnamed/part_009`)

State kept by one `FS` instance: the backend file contents (by canonical
path), the backend directories, the in-memory `this.perms` mapping, and
the `.TFS_STORE` entries persisted through `updPerms` (which merges
`{ ...currentPerms, ...perms }`, i.e. overwrites the given key).

`FS.normalizePath` with the default `currPath == "/"` prefixes a relative
path with `"//"` exactly as `Path.normalizePath` does, so it is the same
function.  Intermediate-directory auto-creation during a write is not
tracked; no claim below depends on it. -/

/-- A `PermissionRecord` value `{ perms, uid, gid }`. -/
structure PermRecord where
  perms : List String
  uid : Nat
  gid : Nat
deriving DecidableEq, Repr

/-- The default record installed by a successful write: `{ perms: ["a"], uid: 0, gid: 0 }`. -/
def permA : PermRecord := ⟨["a"], 0, 0⟩

/-- `FS.normalizePath` at the default `currPath = "/"`. -/
def fsNorm (s : String) : String := ⟨normalizePath s.data⟩

/-- Point update of a string-keyed partial map. -/
def upd {α : Type} (f : String → Option α) (k : String) (v : Option α) : String → Option α :=
  fun q => if q = k then v else f q

structure FSState where
  files : String → Option String
  dirs : String → Bool
  mem : String → Option PermRecord
  store : String → Option PermRecord

/-- The `writeFile` permission gate: denied exactly when a record exists
for the path and has neither `"w"` nor `"a"`. -/
def canWriteRecord : Option PermRecord → Bool
  | some r => r.perms.contains "w" || r.perms.contains "a"
  | none => true

/-- `FS.writeFile(file, content, cb)` on the success path of the backend:
the permission gate runs first and returns the SecurityError-mapped
(EACCES) error without touching anything; otherwise the content is
written, and `{ perms: ["a"], uid: 0, gid: 0 }` is installed for the path
both in `this.perms` and (via `updPerms`) in the `.TFS_STORE` copy,
before the callback receives `null`. -/
def writeFileStep (st : FSState) (p content : String) : FSState × Option FSError :=
  if canWriteRecord (st.mem (fsNorm p)) = false then
    (st, some (genError "SecurityError" (some (fsNorm p)) none))
  else
    ({ st with files := upd st.files (fsNorm p) (some content),
               mem := upd st.mem (fsNorm p) (some permA),
               store := upd st.store (fsNorm p) (some permA) }, none)

/-- `FSConstants` mode bits used by `chmod`. -/
def S_IRUSR : Nat := 256
def S_IRGRP : Nat := 32
def S_IROTH : Nat := 4
def S_IWUSR : Nat := 128
def S_IWGRP : Nat := 16
def S_IWOTH : Nat := 2
def S_IXUSR : Nat := 64
def S_IXGRP : Nat := 8
def S_IXOTH : Nat := 1
def O_APPEND : Nat := 8

/-- The permission list `chmod` computes from a numeric mode. -/
def chmodPerms (mode : Nat) : List String :=
  (if mode &&& S_IRUSR ≠ 0 ∨ mode &&& S_IRGRP ≠ 0 ∨ mode &&& S_IROTH ≠ 0 then ["r"] else []) ++
  (if mode &&& S_IWUSR ≠ 0 ∨ mode &&& S_IWGRP ≠ 0 ∨ mode &&& S_IWOTH ≠ 0 then ["w"] else []) ++
  (if mode &&& S_IXUSR ≠ 0 ∨ mode &&& S_IXGRP ≠ 0 ∨ mode &&& S_IXOTH ≠ 0 then ["x"] else []) ++
  (if mode &&& O_APPEND ≠ 0 then ["a"] else [])

/-- `FS.chmod(path, mode, cb)`, modelled for a canonical `path` (the source
also falls back to `this.perms[path]` for a non-canonical key).  The
computed permission list is written into the looked-up record and that
record is persisted through `updPerms`; the in-memory mapping, however, is
then re-bound to the fresh record `{ perms: ["a"], uid: 0, gid: 0 }`. -/
def chmodStep (st : FSState) (p : String) (mode : Nat) : FSState × Option FSError :=
  match (st.mem (fsNorm p)).orElse (fun _ => st.mem p) with
  | none => (st, some (genError "NotFoundError" (some (fsNorm p)) none))
  | some entry =>
    ({ st with mem := upd st.mem (fsNorm p) (some permA),
               store := upd st.store (fsNorm p)
                 (some { entry with perms := chmodPerms mode }) }, none)

/-- One regular file `"/f.txt"` with content `"old"` and the default
append-only record installed by its original write. -/
def c1Start : FSState :=
  { files := fun q => if q = "/f.txt" then some "old" else none,
    dirs := fun _ => false,
    mem := fun q => if q = "/f.txt" then some permA else none,
    store := fun q => if q = "/f.txt" then some permA else none }

/-- C1 evaluated at its failing input: `chmod("/f.txt", 0o444)` succeeds
and removes write/append from the persisted `.TFS_STORE` record — but the
in-memory record is rebound to `["a"]`, so the subsequent
`writeFile("/f.txt", "new")` passes the permission gate, reports success,
and replaces the content, contradicting the claimed EACCES failure. -/
theorem chmod_then_writeFile_eval :
    chmodPerms 0o444 = ["r"] ∧
    (chmodStep c1Start "/f.txt" 0o444).2 = none ∧
    (chmodStep c1Start "/f.txt" 0o444).1.store "/f.txt" = some ⟨["r"], 0, 0⟩ ∧
    (chmodStep c1Start "/f.txt" 0o444).1.mem "/f.txt" = some ⟨["a"], 0, 0⟩ ∧
    (writeFileStep (chmodStep c1Start "/f.txt" 0o444).1 "/f.txt" "new").2 = none ∧
    (writeFileStep (chmodStep c1Start "/f.txt" 0o444).1 "/f.txt" "new").1.files "/f.txt"
      = some "new" := by
  decide

/-- C8: every successful `writeFile` installs `{ perms: ["a"], uid: 0,
gid: 0 }` for the written path in both the in-memory mapping and the
persisted `.TFS_STORE` copy — the prior state is arbitrary, so any record
previously installed (by `chmod`, `chown` or an earlier write) is
overwritten, not only on the first write. -/
theorem writeFile_installs_append_record (st : FSState) (p content : String)
    (h : (writeFileStep st p content).2 = none) :
    (writeFileStep st p content).1.mem (fsNorm p) = some permA ∧
    (writeFileStep st p content).1.store (fsNorm p) = some permA := by
  unfold writeFileStep at h ⊢
  by_cases hc : canWriteRecord (st.mem (fsNorm p)) = false
  · rw [if_pos hc] at h
    simp at h
  · rw [if_neg hc]
    rw [if_neg hc] at h
    exact ⟨by simp [upd], by simp [upd]⟩

/-- A path carrying a write-only record owned by uid/gid 5 — e.g. the
in-memory result of an earlier `chown`-style update. -/
def c8Start : FSState :=
  { files := fun _ => none,
    dirs := fun _ => false,
    mem := fun q => if q = "/w.txt" then some ⟨["w"], 5, 5⟩ else none,
    store := fun q => if q = "/w.txt" then some ⟨["w"], 5, 5⟩ else none }

theorem writeFile_installs_append_record_witness :
    (writeFileStep c8Start "/w.txt" "x").1.mem (fsNorm "/w.txt") = some permA ∧
    (writeFileStep c8Start "/w.txt" "x").1.store (fsNorm "/w.txt") = some permA :=
  writeFile_installs_append_record c8Start "/w.txt" "x" (by decide)

/-! ## Symlink emulation and stat synthesis

A symlink is stored as a regular file whose text is
`symlink:<target>:<type>`; every reader re-parses it with the lazy regex
`^symlink:(.+?):(file|dir|junction)$`.  Since the three type keywords end
in distinct letters, at most one of the suffixes `:file`, `:dir`,
`:junction` can terminate the text, so the match is equivalent to:
the text starts with `symlink:`, ends with one of the three suffixes, and
the middle part is nonempty and contains no line terminator (JS `.`
excludes `\n`, `\r`, U+2028 and U+2029). -/

/-- Characters matched by the JS regex metacharacter `.`. -/
def dotMatches (c : Char) : Bool :=
  c ≠ '\n' && c ≠ '\r' && c ≠ Char.ofNat 0x2028 && c ≠ Char.ofNat 0x2029

/-- Try to read `rest` as `<middle> ":" <kw>` with a valid middle. -/
def markerSuffix (rest : List Char) (kw : String) : Option (String × String) :=
  let sfx := ':' :: kw.data
  if sfx.length < rest.length ∧ rest.drop (rest.length - sfx.length) = sfx then
    let mid := rest.take (rest.length - sfx.length)
    if mid.all dotMatches then some (⟨mid⟩, kw) else none
  else none

/-- `decode(content)`: the result of matching the symlink marker regex,
giving the target and the link type. -/
def symlinkDecode (text : String) : Option (String × String) :=
  if text.data.take 8 = ("symlink:").data then
    (markerSuffix (text.data.drop 8) "file").orElse (fun _ =>
      (markerSuffix (text.data.drop 8) "dir").orElse (fun _ =>
        markerSuffix (text.data.drop 8) "junction"))
  else none

/-- `encode(target, type)`: the content string written by `FS.symlink`. -/
def symlinkEncode (target typ : String) : String :=
  "symlink:" ++ target ++ ":" ++ typ

example : symlinkDecode (symlinkEncode "/a/target.txt" "file")
    = some ("/a/target.txt", "file") := by decide
example : symlinkDecode "hello world" = none := by decide
example : symlinkDecode "symlink::file" = none := by decide

/-- Equality of fallible results is decidable componentwise (used to
evaluate the models on concrete inputs). -/
instance {ε α : Type} [DecidableEq ε] [DecidableEq α] : DecidableEq (Except ε α) := by
  intro a b
  cases a with
  | error e =>
    cases b with
    | error f => exact decidable_of_iff (e = f) (by constructor <;> (intro h; first | rw [h] | injection h))
    | ok y => exact isFalse (by intro h; injection h)
  | ok x =>
    cases b with
    | error f => exact isFalse (by intro h; injection h)
    | ok y => exact decidable_of_iff (x = y) (by constructor <;> (intro h; first | rw [h] | injection h))

/-- The fields of a synthesized `FSStats` record that the claims inspect:
the `type` string and the results of the three predicate accessors, plus
the POSIX `mode`.  Timestamps, size and name are runtime data with no
bearing on the claims. -/
structure StatRec where
  typ : String
  isSym : Bool
  isDir : Bool
  isFile : Bool
  mode : Nat
deriving DecidableEq, Repr

/-- The synthetic root record (`stat`/`lstat` of `"/"`). -/
def rootStat : StatRec :=
  { typ := "DIRECTORY", isSym := false, isDir := true, isFile := false, mode := 0o40755 }

/-- The `perm` variable `stat`/`lstat` derive from the path's
`PermissionRecord`. -/
def permMode : Option PermRecord → Nat
  | some p =>
    if p.perms.contains "a" then 0o100700
    else if p.perms.contains "w" then 0o100200
    else if p.perms.contains "r" then 0o100400
    else 0o100644
  | none => 0o100644

/-- The record `lstat`/`stat` build for a plain file: an OPFS `File` never
carries the reserved `"DIRECTORY"` MIME type, so `type` is `"FILE"` and
all predicates report a regular file. -/
def fileStat (mode : Nat) : StatRec :=
  { typ := "FILE", isSym := false, isDir := false, isFile := true, mode := mode }

/-- The record built by the directory fallback branch (`getFileHandle`
fails, `getDirectoryHandle` succeeds). -/
def dirStat (mode : Nat) : StatRec :=
  { typ := "DIRECTORY", isSym := false, isDir := true, isFile := false, mode := mode }

/-- `FS.lstat(path, cb)`: the root is synthetic; a path whose final
segment resolves to a file yields a plain-file record built directly from
the `File` object — the content is never decoded, so `isSymbolicLink`
is the constant `false` in every branch; otherwise the directory fallback
or the mapped lookup error. -/
def lstatModel (st : FSState) (p : String) : Except FSError StatRec :=
  if fsNorm p = "/" then .ok rootStat
  else match st.files (fsNorm p) with
    | some _ => .ok (fileStat (permMode (st.mem (fsNorm p))))
    | none =>
      if st.dirs (fsNorm p) then .ok (dirStat (permMode (st.mem (fsNorm p))))
      else .error (genError "NotFoundError" (some p) none)

/-- `FS.stat(path, cb)`: like `lstat` but the file content is decoded; a
symlink marker recurses into the target and wraps the target's record
with `type: "symlink"`, `isSymbolicLink: () => true` and the predicates
derived from the target's `type`.  The source has no cycle detection;
the model uses fuel, and exhausting it stands for the unbounded
recursion (never reached in the claims below). -/
def statModel (st : FSState) : Nat → String → Except FSError StatRec
  | 0, p => .error (createFSError "UNKNOWN" (some p) (some "unbounded symlink recursion"))
  | fuel + 1, p =>
    if fsNorm p = "/" then .ok rootStat
    else match st.files (fsNorm p) with
      | some c =>
        match symlinkDecode c with
        | some (target, _) =>
          match statModel st fuel target with
          | .error e => .error (genError e.name (some target) (some e.message))
          | .ok s =>
            .ok { typ := "symlink", isSym := true,
                  isDir := s.typ == "DIRECTORY", isFile := !(s.typ == "DIRECTORY"),
                  mode := 0o120777 }
        | none => .ok (fileStat (permMode (st.mem (fsNorm p))))
      | none =>
        if st.dirs (fsNorm p) then .ok (dirStat (permMode (st.mem (fsNorm p))))
        else .error (genError "NotFoundError" (some p) none)

/-- `FS.readlink(path, cb)`: a failed handle lookup reaches the `catch`
and invokes the callback with the mapped error; a successful lookup reads
the text and invokes the callback *only* when the marker regex matches —
a plain file's text falls through the `if (isSymlink)` with no `else`, so
the callback is never invoked.  `none` models "callback never called". -/
def readlinkModel (st : FSState) (p : String) : Option (Except FSError String) :=
  match st.files (fsNorm p) with
  | none =>
    some (.error (genError
      (if st.dirs (fsNorm p) then "TypeMismatchError" else "NotFoundError")
      (some p) none))
  | some c =>
    match symlinkDecode c with
    | some (target, _) => some (.ok target)
    | none => none

/-- Settlement state of a `new Promise` whose executor only ever calls
`resolve`/`reject` from the wrapped callback. -/
inductive PromiseState (α : Type) where
  | pending
  | resolved (a : α)
  | rejected (e : FSError)
deriving DecidableEq, Repr

/-- `FS.promises.readlink(path)`: settles exactly when the callback runs. -/
def promisesReadlink (st : FSState) (p : String) : PromiseState String :=
  match readlinkModel st p with
  | none => .pending
  | some (.ok t) => .resolved t
  | some (.error e) => .rejected e

/-- `FS.symlink(target, path, type, cb)`: writes the encoded marker with
`writeFile`; a write error is re-wrapped through `genError(err, path)`
(an already-mapped error re-enters the dispatcher and becomes UNKNOWN). -/
def symlinkStep (st : FSState) (target path typ : String) : FSState × Option FSError :=
  match writeFileStep st path (symlinkEncode target typ) with
  | (st2, some e) => (st2, some (genError e.name (some path) (some e.message)))
  | (st2, none) => (st2, none)

/-- The empty backend. -/
def emptyFS : FSState :=
  { files := fun _ => none, dirs := fun _ => false,
    mem := fun _ => none, store := fun _ => none }

/-- Backend after `writeFile("/a/target.txt", "hello")`. -/
def c2WithTarget : FSState := (writeFileStep emptyFS "/a/target.txt" "hello").1

/-- Backend after the `symlink("/a/target.txt", "/a/link.txt", "file")`
of the claim. -/
def c2Linked : FSState :=
  (symlinkStep c2WithTarget "/a/target.txt" "/a/link.txt" "file").1

/-- C2 evaluated at the spec's own example: the symlink is created and
`readlink` returns the target; `stat` follows the link and reports the
target's own file type through `isFile()`; but `lstat` returns a plain
`FILE` record whose `isSymbolicLink()` is `false` — the marker is never
decoded by `lstat` — contradicting the claimed `isSymbolicLink() == true`. -/
theorem symlink_lstat_eval :
    (symlinkStep c2WithTarget "/a/target.txt" "/a/link.txt" "file").2 = none ∧
    readlinkModel c2Linked "/a/link.txt" = some (Except.ok "/a/target.txt") ∧
    statModel c2Linked 2 "/a/link.txt" =
      Except.ok ⟨"symlink", true, false, true, 0o120777⟩ ∧
    lstatModel c2Linked "/a/link.txt" =
      Except.ok ⟨"FILE", false, false, true, 0o100700⟩ := by
  decide

/-- C9: the three callback behaviours of `readlink`, as a function of the
backend lookup: an existing file that does not decode as a symlink marker
produces no callback at all (and the promise wrapper stays pending
forever); a decodable marker yields the target; a failed lookup yields
the mapped error. -/
theorem readlink_callback_cases (st : FSState) (p : String) :
    (∀ c, st.files (fsNorm p) = some c → symlinkDecode c = none →
      readlinkModel st p = none ∧ promisesReadlink st p = PromiseState.pending) ∧
    (∀ c t k, st.files (fsNorm p) = some c → symlinkDecode c = some (t, k) →
      readlinkModel st p = some (Except.ok t)) ∧
    (st.files (fsNorm p) = none →
      readlinkModel st p = some (Except.error (genError
        (if st.dirs (fsNorm p) then "TypeMismatchError" else "NotFoundError")
        (some p) none))) := by
  refine ⟨?_, ?_, ?_⟩
  · intro c hc hdec
    constructor <;> simp [readlinkModel, promisesReadlink, hc, hdec]
  · intro c t k hc hdec
    simp [readlinkModel, hc, hdec]
  · intro hc
    simp [readlinkModel, hc]

/-- A backend holding one ordinary text file. -/
def c9Plain : FSState :=
  { files := fun q => if q = "/plain.txt" then some "hello world" else none,
    dirs := fun _ => false, mem := fun _ => none, store := fun _ => none }

theorem readlink_callback_cases_witness :
    readlinkModel c9Plain "/plain.txt" = none ∧
      promisesReadlink c9Plain "/plain.txt" = PromiseState.pending :=
  (readlink_callback_cases c9Plain "/plain.txt").1 "hello world" (by decide) (by decide)

/-! ## `copyFile` (C3)

`copyFile` reads the source as a full ArrayBuffer and, in the read
callback, runs

  `if (err) genError(err, oldP);`
  `this.writeFile(newP, data, "arraybuffer", callback);`

The mapped error is built and discarded; `writeFile` runs regardless with
`data == null`, whose `"arraybuffer"` coercion branch is
`new ArrayBuffer(0)`.  The model is a function of the read outcome
(bytes as `List Nat`); the destination write is taken on its backend
success path with no restricting permission record, as in the claim's
scenario.  The result is (bytes written to the destination, callback
argument). -/

def copyFileStep (readResult : Except FSError (List Nat)) : List Nat × Option FSError :=
  let data : Option (List Nat) :=
    match readResult with
    | .ok d => some d
    | .error _ => none
  let toWrite : List Nat :=
    match data with
    | some d => d
    | none => []
  (toWrite, none)

/-- C3 evaluated: whenever the full-buffer read of the source fails, the
mapped error is *not* returned to the caller — `copyFile` writes a 0-byte
destination and invokes its callback with `null` (success); a successful
read is copied byte-for-byte. -/
theorem copyFile_swallows_read_error :
    (∀ e : FSError, copyFileStep (Except.error e) = ([], none)) ∧
    (∀ d : List Nat, copyFileStep (Except.ok d) = (d, none)) :=
  ⟨fun _ => rfl, fun _ => rfl⟩

/-! ## `Shell.cat` (C4)

Each path is read concurrently; in every read callback the code runs

  `if (err) { callback(genError(err), null); } else { results[idx] = data; }`
  `completed++;`
  `if (completed === fp.length) { callback(null, results.join("")); }`

There is no `return` after the error callback: `completed` still counts
the failed read, and once all reads have settled the success callback
fires with the sparse `results` joined (missing slots contribute `""`).
The inner errors handed to `genError(err)` are already-mapped `FSError`s,
so they re-map to UNKNOWN.  `catRun` lists the callback invocations in
read-completion order, taken here as input order (any completion order
produces the same multiset and the same final success call). -/

inductive CatInv where
  | err (e : FSError)
  | ok (data : String)
deriving DecidableEq, Repr

/-- The string a read outcome contributes to `results.join("")`. -/
def catResStr : Except FSError String → String
  | .ok d => d
  | .error _ => ""

/-- The error-callback invocation (if any) a read outcome triggers. -/
def catErrInv : Except FSError String → List CatInv
  | .ok _ => []
  | .error e => [CatInv.err (genError e.name none (some e.message))]

def catRun : List (Except FSError String) → List String → List CatInv
  | [], _ => []
  | [r], acc => catErrInv r ++ [CatInv.ok (String.join (acc ++ [catResStr r]))]
  | r :: rest, acc => catErrInv r ++ catRun rest (acc ++ [catResStr r])

/-- `Shell.cat` callback invocations for a list of per-path read
outcomes; an empty path list errors immediately with ENOENT. -/
def shellCat : List (Except FSError String) → List CatInv
  | [] => [CatInv.err (genError "NotFoundError" none none)]
  | r :: rest => catRun (r :: rest) []

example : shellCat [Except.ok "A", Except.ok "B"] = [CatInv.ok "AB"] := by decide

/-- C4 evaluated at its failing input `["/ok.txt", "/missing.txt"]` where
the first read succeeds with `"A"` and the second fails with the mapped
ENOENT error: the callback is invoked twice — once with the (re-wrapped)
error and then again with a success carrying the surviving data —
contradicting the claimed exactly-once discipline. -/
theorem cat_double_callback_eval :
    shellCat [Except.ok "A",
        Except.error (createFSError "ENOENT" (some "/missing.txt") none)] =
      [CatInv.err (createFSError "UNKNOWN" none (some "no such file or directory")),
       CatInv.ok "A"] ∧
    (shellCat [Except.ok "A",
        Except.error (createFSError "ENOENT" (some "/missing.txt") none)]).length = 2 := by
  decide

/-! ## The change watcher (C7)

`watch` builds a private emitter; `close()` sets the `closed` flag, clears
the poll interval and removes every listener.  A scan that was already in
flight when `close()` ran continues past its initial `if (closed) return`
guard, but each of its `emitter.emit` calls iterates the *current*
listener array, which `close()` emptied.  The model runs a trace of
registrations, the close, and then any number of raw emit calls
(representing the in-flight poll); the output collects every listener
invocation. -/

inductive WEvent where
  | rename
  | change
deriving DecidableEq, Repr

structure WatcherState (L : Type) where
  closed : Bool
  listeners : List L

inductive WAction (L : Type) where
  | on (l : L)
  | close
  | pollEmit (e : WEvent) (f : String)

/-- One watcher action: `watcher.on` appends a listener, `close` clears
flag and listeners, a poll's `emitter.emit(event, file)` invokes every
currently registered listener. -/
def wStep {L : Type} (st : WatcherState L) :
    WAction L → WatcherState L × List (L × WEvent × String)
  | .on l => ({ st with listeners := st.listeners ++ [l] }, [])
  | .close => ({ closed := true, listeners := [] }, [])
  | .pollEmit e f => (st, st.listeners.map (fun l => (l, e, f)))

def wRun {L : Type} (st : WatcherState L) :
    List (WAction L) → WatcherState L × List (L × WEvent × String)
  | [] => (st, [])
  | a :: rest =>
    ((wRun (wStep st a).1 rest).1, (wStep st a).2 ++ (wRun (wStep st a).1 rest).2)

theorem wRun_append {L : Type} (st : WatcherState L) (a b : List (WAction L)) :
    wRun st (a ++ b) =
      ((wRun (wRun st a).1 b).1, (wRun st a).2 ++ (wRun (wRun st a).1 b).2) := by
  induction a generalizing st with
  | nil => simp [wRun]
  | cons x xs ih =>
    simp only [List.cons_append, wRun, List.append_eq]
    rw [ih]
    simp [List.append_assoc]

theorem wRun_close_listeners {L : Type} (st : WatcherState L) (acts : List (WAction L)) :
    (wRun st (acts ++ [WAction.close])).1.listeners = [] := by
  rw [wRun_append]
  simp [wRun, wStep]

theorem pollEmits_silent {L : Type} (st : WatcherState L) (h : st.listeners = [])
    (posts : List (WEvent × String)) :
    (wRun st (posts.map (fun q => WAction.pollEmit q.1 q.2))).2 = [] := by
  induction posts with
  | nil => rfl
  | cons q qs ih =>
    simp only [List.map_cons, wRun, wStep]
    simp [h, ih]

/-- C7: for every watcher history `pre` (registrations and poll emits in
any order) followed by `close()`, every later emit — in particular each
emit of a poll that was already in flight when `close()` ran — invokes no
listener: the post-close output trace is empty. -/
theorem watcher_no_events_after_close {L : Type}
    (pre : List (WAction L)) (posts : List (WEvent × String)) :
    (wRun (wRun (⟨false, []⟩ : WatcherState L) (pre ++ [WAction.close])).1
      (posts.map (fun q => WAction.pollEmit q.1 q.2))).2 = [] :=
  pollEmits_silent _ (wRun_close_listeners _ pre) posts

/-! ## `readdir` (C10)

The entry iteration pushes each name with
`if (name !== ".TFS_STORE") entries.push(name);` — the guard is
unconditional on which directory handle the walk reached, so the model
takes the raw backend listing of an arbitrary directory. -/

/-- The `next()` iteration loop of `readdir`. -/
def readdirLoop : List String → List String → List String
  | [], entries => entries
  | n :: rest, entries =>
    readdirLoop rest (if n ≠ ".TFS_STORE" then entries ++ [n] else entries)

/-- `FS.readdir` entry list for a directory whose backend iterator yields
`raw`. -/
def readdirModel (raw : List String) : List String := readdirLoop raw []

theorem readdirLoop_no_store :
    ∀ (raw acc : List String), ".TFS_STORE" ∉ acc → ".TFS_STORE" ∉ readdirLoop raw acc
  | [], _, h => h
  | n :: rest, acc, h => by
    simp only [readdirLoop]
    by_cases hn : n = ".TFS_STORE"
    · rw [if_neg (by simp [hn])]
      exact readdirLoop_no_store rest acc h
    · rw [if_pos hn]
      refine readdirLoop_no_store rest (acc ++ [n]) ?_
      intro hmem
      rcases List.mem_append.mp hmem with hmem | hmem
      · exact h hmem
      · have heq : (".TFS_STORE" : String) = n := by simpa using hmem
        exact hn heq.symm

/-- C10: for every directory, whatever raw entry sequence the backend
iterator produces, the list returned by `readdir` never contains the
reserved name `".TFS_STORE"` — the metadata entry is filtered from every
listing, not only the root's. -/
theorem readdir_excludes_store (raw : List String) :
    ".TFS_STORE" ∉ readdirModel raw :=
  readdirLoop_no_store raw [] (by simp)

end TFS
